import Mathlib

/-!
Verification of the `diesel_pg_hstore` crate (Postgres hstore support for
Diesel).  The development shallowly embeds the binary wire codec
(`FromSql::from_sql`, `ToSql::to_sql`, `HstoreIterator::consume`), the
literal renderer (`QueryFragment::walk_ast`), the `Index` impl, and the
operator catalog from `dsl.rs`, and proves or refutes the specified
properties about them.

Byte buffers are `List Nat` (each element a byte value `< 256`); the i32
fields of the wire format are `Int` with explicit two's-complement
wrap-around at 2^32, matching `read_i32::<BigEndian>` / `write_i32` and
Rust's `as i32` casts.
-/

namespace DieselPgHstore

/-- A byte buffer, as in Rust a `&[u8]` / `Vec<u8>`. -/
abbrev Bytes := List Nat

/-- Big-endian 4-byte encoding of the low 32 bits of `u`
(`write_i32::<BigEndian>` / `write_u32` on the two's-complement bit pattern). -/
def be4 (u : Nat) : Bytes :=
  [u / 2 ^ 24 % 256, u / 2 ^ 16 % 256, u / 2 ^ 8 % 256, u % 256]

/-- Big-endian reassembly of four bytes into an unsigned 32-bit value. -/
def unbe4 (b0 b1 b2 b3 : Nat) : Nat :=
  ((b0 * 256 + b1) * 256 + b2) * 256 + b3

/-- Reinterpret an unsigned 32-bit value as a signed i32 (two's complement). -/
def toI32 (u : Nat) : Int :=
  if u % 2 ^ 32 < 2 ^ 31 then (u % 2 ^ 32 : Nat) else (u % 2 ^ 32 : Nat) - 2 ^ 32

/-- The byte image of an i32 value `v`, as written by `write_i32::<BigEndian>`. -/
def write_i32 (v : Int) : Bytes := be4 (v % 2 ^ 32).toNat

/-- Model of `buf.read_i32::<BigEndian>()` on a byte slice: take the first four
bytes as a big-endian signed value and return the remaining slice; `none`
models the `UnexpectedEof` io error when fewer than four bytes remain. -/
def read_i32 : Bytes → Option (Int × Bytes)
  | b0 :: b1 :: b2 :: b3 :: rest => some (toI32 (unbe4 b0 b1 b2 b3), rest)
  | _ => none

theorem unbe4_be4 (u : Nat) :
    unbe4 (u / 2 ^ 24 % 256) (u / 2 ^ 16 % 256) (u / 2 ^ 8 % 256) (u % 256) =
      u % 2 ^ 32 := by
  simp only [unbe4]
  omega

theorem toI32_mod (u : Nat) : toI32 (u % 2 ^ 32) = toI32 u := by
  simp [toI32, Nat.mod_mod_of_dvd]

theorem read_i32_be4_append (u : Nat) (rest : Bytes) :
    read_i32 (be4 u ++ rest) = some (toI32 u, rest) := by
  simp only [be4, List.cons_append, List.nil_append, read_i32, unbe4_be4, toI32_mod]

theorem toI32_of_lt (u : Nat) (h : u < 2 ^ 31) : toI32 u = u := by
  simp only [toI32]
  split <;> omega

theorem toI32_write_i32 (v : Int) (h1 : -2 ^ 31 ≤ v) (h2 : v < 2 ^ 31) :
    toI32 (v % 2 ^ 32).toNat = v := by
  have hmod : v % 2 ^ 32 = if 0 ≤ v then v else v + 2 ^ 32 := by
    split <;> omega
  simp only [toI32]
  split <;> omega

/-- Is `b` a UTF-8 continuation byte (`0x80 ..= 0xBF`)? -/
def isCont (b : Nat) : Bool := 0x80 ≤ b && b ≤ 0xBF

/-- UTF-8 validity of a byte sequence, following the standard table used by
Rust's `str::from_utf8` (RFC 3629: no overlong forms, no surrogates, at most
U+10FFFF). -/
def validUtf8 : Bytes → Bool
  | [] => true
  | b :: rest =>
    if b ≤ 0x7F then validUtf8 rest
    else if 0xC2 ≤ b && b ≤ 0xDF then
      match rest with
      | c1 :: rest2 => isCont c1 && validUtf8 rest2
      | _ => false
    else if b = 0xE0 then
      match rest with
      | c1 :: c2 :: rest2 =>
        (0xA0 ≤ c1 && c1 ≤ 0xBF) && isCont c2 && validUtf8 rest2
      | _ => false
    else if (0xE1 ≤ b && b ≤ 0xEC) || b = 0xEE || b = 0xEF then
      match rest with
      | c1 :: c2 :: rest2 => isCont c1 && isCont c2 && validUtf8 rest2
      | _ => false
    else if b = 0xED then
      match rest with
      | c1 :: c2 :: rest2 =>
        (0x80 ≤ c1 && c1 ≤ 0x9F) && isCont c2 && validUtf8 rest2
      | _ => false
    else if b = 0xF0 then
      match rest with
      | c1 :: c2 :: c3 :: rest2 =>
        (0x90 ≤ c1 && c1 ≤ 0xBF) && isCont c2 && isCont c3 && validUtf8 rest2
      | _ => false
    else if 0xF1 ≤ b && b ≤ 0xF3 then
      match rest with
      | c1 :: c2 :: c3 :: rest2 =>
        isCont c1 && isCont c2 && isCont c3 && validUtf8 rest2
      | _ => false
    else if b = 0xF4 then
      match rest with
      | c1 :: c2 :: c3 :: rest2 =>
        (0x80 ≤ c1 && c1 ≤ 0x8F) && isCont c2 && isCont c3 && validUtf8 rest2
      | _ => false
    else false

/-- The in-memory Container: contents of the `HashMap<String, String>` inside
`Hstore`, modelled as an association list with pairwise-distinct keys.  Keys
and values are the UTF-8 byte contents of the Rust `String`s. -/
abbrev Hstore := List (Bytes × Bytes)

/-- Model of `HashMap::insert`: replace the value if the key is present,
otherwise add the pair. -/
def hmInsert (m : Hstore) (k v : Bytes) : Hstore :=
  match m with
  | [] => [(k, v)]
  | (k2, v2) :: rest => if k2 = k then (k, v) :: rest else (k2, v2) :: hmInsert rest k v

/-- Model of `HashMap::get`. -/
def hmGet (m : Hstore) (k : Bytes) : Option Bytes :=
  match m with
  | [] => none
  | (k2, v2) :: rest => if k2 = k then some v2 else hmGet rest k

/-- The decode-time failure modes of `from_sql` (spec taxonomy names in
parentheses): `notFound` — the wire value was absent entirely
(`UnexpectedNull`); `invalidEntryCount` — "Invalid entry count for hstore"
(`MalformedCount`); `unexpectedEof` — an io `UnexpectedEof` from
`read_i32` on a short buffer; `invalidBufferSize` — "invalid buffer size"
(`TrailingData`); `invalidKeyLength` — "invalid key length"
(`MalformedKeyLength`); `invalidUtf8` — `str::from_utf8` failure
(`InvalidUtf8`). -/
inductive DecErr where
  | notFound
  | invalidEntryCount
  | unexpectedEof
  | invalidBufferSize
  | invalidKeyLength
  | invalidUtf8
  deriving DecidableEq, Repr

/-- Outcome of running a fallible piece of the decoder.  `panicked` records
an abnormal termination of the Rust code (a `panic!`, e.g. from
`slice::split_at` with `mid > len`); it is not an error value returned to the
caller. -/
inductive DecResult (α : Type) where
  | ok (a : α)
  | err (e : DecErr)
  | panicked
  deriving DecidableEq, Repr

/-- Model of `slice::split_at(n)`: splits when `n ≤ len`, panics otherwise
("mid > len", per its documentation). -/
def splitAtChecked (n : Nat) (l : Bytes) : DecResult (Bytes × Bytes) :=
  if n ≤ l.length then .ok (l.take n, l.drop n) else .panicked

/-- Model of `str::from_utf8`: a Rust `&str` is exactly a byte slice
validated as UTF-8, so success returns the same bytes. -/
def fromUtf8 (bs : Bytes) : DecResult Bytes :=
  if validUtf8 bs then .ok bs else .err .invalidUtf8

/-- State of `HstoreIterator`: the `remaining` entry counter (an i32) and the
unread part of the buffer. -/
structure IterState where
  remaining : Int
  buf : Bytes
  deriving DecidableEq, Repr

/-- Model of `HstoreIterator::consume`, line for line: when `remaining == 0`
the buffer must be empty ("invalid buffer size") and iteration ends;
otherwise decrement `remaining`, read the key length (negative is "invalid
key length"), split off and UTF-8-check the key, read the value length
(negative means a NULL value: no value bytes follow), and split off and
UTF-8-check the value when present. -/
def consume (st : IterState) : DecResult (Option (Bytes × Option Bytes) × IterState) :=
  if st.remaining = 0 then
    if !st.buf.isEmpty then .err .invalidBufferSize
    else .ok (none, st)
  else
    let remaining := st.remaining - 1
    match read_i32 st.buf with
    | none => .err .unexpectedEof
    | some (keyLen, buf1) =>
      if keyLen < 0 then .err .invalidKeyLength
      else
        match splitAtChecked keyLen.toNat buf1 with
        | .panicked => .panicked
        | .err e => .err e
        | .ok (key, buf2) =>
          match fromUtf8 key with
          | .panicked => .panicked
          | .err e => .err e
          | .ok key =>
            match read_i32 buf2 with
            | none => .err .unexpectedEof
            | some (valLen, buf3) =>
              if valLen < 0 then .ok (some (key, none), ⟨remaining, buf3⟩)
              else
                match splitAtChecked valLen.toNat buf3 with
                | .panicked => .panicked
                | .err e => .err e
                | .ok (val, buf4) =>
                  match fromUtf8 val with
                  | .panicked => .panicked
                  | .err e => .err e
                  | .ok val => .ok (some (key, some val), ⟨remaining, buf4⟩)

/-- The decode loop of `from_sql` fused with `FallibleIterator::next` for
`HstoreIterator`: repeatedly `consume`; an entry whose value was the NULL
sentinel is skipped, an entry with a present value is inserted into the map.
`fuel` is an embedding artifact bounding the number of `consume` calls; the
fuel passed by `from_sql` (entry count + 1) is always sufficient because
every continuing iteration decrements `remaining` by one and the `remaining
== 0` iteration stops. -/
def decodeLoop : Nat → IterState → Hstore → DecResult Hstore
  | 0, _, _ => .panicked
  | fuel + 1, st, map =>
    match consume st with
    | .panicked => .panicked
    | .err e => .err e
    | .ok (none, _) => .ok map
    | .ok (some (_, none), st2) => decodeLoop fuel st2 map
    | .ok (some (k, some v), st2) => decodeLoop fuel st2 (hmInsert map k v)

/-- Model of `FromSql::from_sql`: `None` bytes is the `NotFound` error;
otherwise read the entry count (negative is "Invalid entry count for
hstore"), then run the entry loop starting from an empty map. -/
def from_sql (bytes : Option Bytes) : DecResult Hstore :=
  match bytes with
  | none => .err .notFound
  | some buf =>
    match read_i32 buf with
    | none => .err .unexpectedEof
    | some (count, buf1) =>
      if count < 0 then .err .invalidEntryCount
      else decodeLoop (count.toNat + 1) ⟨count, buf1⟩ []

/-- Decoding a present wire value. -/
def decodeBytes (buf : Bytes) : DecResult Hstore := from_sql (some buf)

/-- Model of `write_pascal_string`: the string's byte length as an i32
(`s.len() as i32`, i.e. the low 32 bits) followed by the raw bytes. -/
def write_pascal_string (s : Bytes) : Bytes := be4 s.length ++ s

/-- Model of `ToSql::to_sql` of a Container `c` (in one iteration order of
the `HashMap`): a count prefix (`count as i32`) followed by key and value
pascal strings for each pair. -/
def to_sql (c : Hstore) : Bytes :=
  be4 c.length ++ (c.map fun kv => write_pascal_string kv.1 ++ write_pascal_string kv.2).flatten

/-- Wire image of one decode-side entry: a pascal-string key followed by
either the `-1` NULL-value sentinel or a pascal-string value. -/
def encodeEntry (e : Bytes × Option Bytes) : Bytes :=
  write_pascal_string e.1 ++
    (match e.2 with
     | none => write_i32 (-1)
     | some v => write_pascal_string v)

/-- Wire image of a list of decode-side entries. -/
def encodeEntries (es : List (Bytes × Option Bytes)) : Bytes :=
  (es.map encodeEntry).flatten

/-- A full decode-side wire buffer: entry count followed by the entries. -/
def encodeWire (es : List (Bytes × Option Bytes)) : Bytes :=
  be4 es.length ++ encodeEntries es

/-- Well-formedness of one decode-side wire entry: key (and value, when
present) are valid UTF-8 and their byte lengths fit in an i32. -/
def wfEntry (e : Bytes × Option Bytes) : Bool :=
  validUtf8 e.1 && decide (e.1.length < 2 ^ 31) &&
    (match e.2 with
     | none => true
     | some v => validUtf8 v && decide (v.length < 2 ^ 31))

/-- The map effect of one decoded entry: NULL-sentinel entries are dropped,
present values are inserted. -/
def insertEntry (m : Hstore) (e : Bytes × Option Bytes) : Hstore :=
  match e.2 with
  | none => m
  | some v => hmInsert m e.1 v

/-- The map built from a list of decoded entries, in order. -/
def insertEntries (m : Hstore) (es : List (Bytes × Option Bytes)) : Hstore :=
  es.foldl insertEntry m

/-- The loop body of `QueryFragment::walk_ast` for `Hstore`: for each pair
push `"{k}=>{v}"`, then, when `ind != max`, push a comma; `ind` is the
0-based position of the pair and `max` the total number of pairs.  The
pushed fragments concatenate left to right. -/
def walk_ast_loop (max : Nat) (ind : Nat) (pairs : List (String × String)) : String :=
  match pairs with
  | [] => ""
  | (k, v) :: rest =>
    let fmt := k ++ "=>" ++ v
    let fmt := if ind ≠ max then fmt ++ "," else fmt
    fmt ++ walk_ast_loop max (ind + 1) rest

/-- Model of `QueryFragment::walk_ast` for `Hstore` (the literal renderer):
`'` then the pair segments then `'::hstore`, over one iteration order of the
map. -/
def walk_ast (pairs : List (String × String)) : String :=
  "'" ++ walk_ast_loop pairs.length 0 pairs ++ "'::hstore"

/-- Outcome of an operation that either returns a value or panics with a
message (`Option::expect`). -/
inductive PanicOr (α : Type) where
  | ok (a : α)
  | panicked (msg : String)
  deriving DecidableEq, Repr

/-- Model of `Index<&str> for Hstore`:
`self.0.get(index).expect("no entry found for key")`. -/
def indexHstore (m : Hstore) (k : Bytes) : PanicOr Bytes :=
  match hmGet m k with
  | some v => .ok v
  | none => .panicked "no entry found for key"

/-- An hstore operator expression node as generated by the operator macros in
`dsl.rs`: the engine token together with the two typed operand
sub-expressions. -/
structure OpNode (L R : Type) where
  token : String
  left : L
  right : R
  deriving DecidableEq, Repr

/-- Node of `diesel::infix_operator!(HstoreLeftSubset, "@>", Bool, backend: Pg)`. -/
def mkHstoreLeftSubset {L R : Type} (l : L) (r : R) : OpNode L R := ⟨"@>", l, r⟩

/-- Node of `diesel::infix_operator!(HstoreRightSubset, "<@", Bool, backend: Pg)`. -/
def mkHstoreRightSubset {L R : Type} (l : L) (r : R) : OpNode L R := ⟨"<@", l, r⟩

/-- Model of `HstoreOpExtensions::contains`:
`HstoreRightSubset::new(self, other.as_expression())`. -/
def containsBuilder {L R : Type} (l : L) (r : R) : OpNode L R :=
  mkHstoreRightSubset l r

/-- Model of `HstoreOpExtensions::is_contained_by`:
`HstoreLeftSubset::new(self, other.as_expression())`. -/
def isContainedByBuilder {L R : Type} (l : L) (r : R) : OpNode L R :=
  mkHstoreLeftSubset l r

/-! Basic lemmas about the map model. -/

theorem hmGet_hmInsert_self (m : Hstore) (k v : Bytes) :
    hmGet (hmInsert m k v) k = some v := by
  induction m with
  | nil => simp [hmInsert, hmGet]
  | cons p rest ih =>
    obtain ⟨k2, v2⟩ := p
    by_cases h : k2 = k <;> simp [hmInsert, hmGet, h, ih]

theorem hmGet_hmInsert_ne (m : Hstore) (k k2 v : Bytes) (h : k2 ≠ k) :
    hmGet (hmInsert m k2 v) k = hmGet m k := by
  induction m with
  | nil => simp [hmInsert, hmGet, h]
  | cons p rest ih =>
    obtain ⟨k3, v3⟩ := p
    by_cases h3 : k3 = k2 <;> by_cases h4 : k3 = k <;>
      simp_all [hmInsert, hmGet]

theorem hmInsert_append_of_get_none (m : Hstore) (k v : Bytes)
    (h : hmGet m k = none) : hmInsert m k v = m ++ [(k, v)] := by
  induction m with
  | nil => simp [hmInsert]
  | cons p rest ih =>
    obtain ⟨k2, v2⟩ := p
    by_cases h2 : k2 = k
    · simp [hmGet, h2] at h
    · simp only [hmGet, h2, if_false] at h
      simp [hmInsert, h2, ih h]

theorem length_hmInsert (m : Hstore) (k v : Bytes) :
    (hmInsert m k v).length ≤ m.length + 1 := by
  induction m with
  | nil => simp [hmInsert]
  | cons p rest ih =>
    obtain ⟨k2, v2⟩ := p
    by_cases h : k2 = k
    · simp [hmInsert, h]
    · simp only [hmInsert, h, if_false, List.length_cons]
      omega

/-! Decoder lemmas: behaviour of `consume` and the decode loop on encoded
entries. -/

theorem consume_pascal (n : Int) (hn : n ≠ 0) (k : Bytes) (v : Option Bytes)
    (rest : Bytes) (hwf : wfEntry (k, v) = true) :
    consume ⟨n, encodeEntry (k, v) ++ rest⟩ = .ok (some (k, v), ⟨n - 1, rest⟩) := by
  have hk : validUtf8 k = true := by
    simp only [wfEntry, Bool.and_eq_true, decide_eq_true_eq] at hwf
    exact hwf.1.1
  have hkl : k.length < 2 ^ 31 := by
    simp only [wfEntry, Bool.and_eq_true, decide_eq_true_eq] at hwf
    exact hwf.1.2
  cases v with
  | none =>
    have hw1 : write_i32 (-1) = be4 4294967295 := by decide
    have hm1 : toI32 4294967295 = -1 := by decide
    simp only [encodeEntry, write_pascal_string, hw1, List.append_assoc]
    simp only [consume, hn, if_false, read_i32_be4_append, toI32_of_lt k.length hkl]
    have h0 : ¬ ((k.length : Int) < 0) := by omega
    have htn : (k.length : Int).toNat = k.length := by omega
    have hsplit : splitAtChecked k.length (k ++ (be4 4294967295 ++ rest)) =
        .ok (k, be4 4294967295 ++ rest) := by
      simp [splitAtChecked, List.take_left, List.drop_left]
    simp only [h0, if_false, htn, hsplit, fromUtf8, hk, if_true,
      read_i32_be4_append, hm1]
    norm_num
  | some w =>
    have hw : validUtf8 w = true := by
      simp only [wfEntry, Bool.and_eq_true, decide_eq_true_eq] at hwf
      exact hwf.2.1
    have hwl : w.length < 2 ^ 31 := by
      simp only [wfEntry, Bool.and_eq_true, decide_eq_true_eq] at hwf
      exact hwf.2.2
    simp only [encodeEntry, write_pascal_string, List.append_assoc]
    simp only [consume, hn, if_false, read_i32_be4_append, toI32_of_lt k.length hkl]
    have h0 : ¬ ((k.length : Int) < 0) := by omega
    have htn : (k.length : Int).toNat = k.length := by omega
    simp only [h0, if_false, htn]
    have hsplit : splitAtChecked k.length (k ++ (be4 w.length ++ (w ++ rest))) =
        .ok (k, be4 w.length ++ (w ++ rest)) := by
      simp [splitAtChecked, List.take_left, List.drop_left]
    simp only [hsplit, fromUtf8, hk, if_true, read_i32_be4_append,
      toI32_of_lt w.length hwl]
    have h0w : ¬ ((w.length : Int) < 0) := by omega
    have htnw : (w.length : Int).toNat = w.length := by omega
    simp only [h0w, if_false, htnw]
    have hsplitw : splitAtChecked w.length (w ++ rest) = .ok (w, rest) := by
      simp [splitAtChecked, List.take_left, List.drop_left]
    simp [hsplitw, fromUtf8, hw]

theorem decodeLoop_encodeEntries (es : List (Bytes × Option Bytes)) :
    ∀ (n : Int) (fuel : Nat) (rest : Bytes) (acc : Hstore),
    (∀ e ∈ es, wfEntry e = true) → (es.length : Int) ≤ n → es.length < fuel →
    decodeLoop fuel ⟨n, encodeEntries es ++ rest⟩ acc =
      decodeLoop (fuel - es.length) ⟨n - es.length, rest⟩ (insertEntries acc es) := by
  induction es with
  | nil =>
    intro n fuel rest acc _ _ _
    simp [encodeEntries, insertEntries]
  | cons e tl ih =>
    intro n fuel rest acc hwf hn hfuel
    obtain ⟨k, v⟩ := e
    obtain ⟨fuel2, rfl⟩ : ∃ f, fuel = f + 1 := by
      cases fuel with
      | zero => omega
      | succ f => exact ⟨f, rfl⟩
    have hn0 : n ≠ 0 := by
      have : (0 : Int) ≤ tl.length := by positivity
      simp only [List.length_cons] at hn
      push_cast at hn
      omega
    have hcons : consume ⟨n, encodeEntries ((k, v) :: tl) ++ rest⟩ =
        .ok (some (k, v), ⟨n - 1, encodeEntries tl ++ rest⟩) := by
      have : encodeEntries ((k, v) :: tl) ++ rest =
          encodeEntry (k, v) ++ (encodeEntries tl ++ rest) := by
        simp [encodeEntries, List.append_assoc]
      rw [this]
      exact consume_pascal n hn0 k v (encodeEntries tl ++ rest)
        (hwf (k, v) (List.mem_cons_self _ _))
    have hlen : ((k, v) :: tl).length = tl.length + 1 := by simp
    cases v with
    | none =>
      simp only [decodeLoop, hcons]
      rw [ih (n - 1) fuel2 rest acc
        (fun e he => hwf e (List.mem_cons_of_mem _ he))
        (by simp only [List.length_cons] at hn; push_cast at hn ⊢; omega)
        (by omega)]
      have h1 : fuel2 - tl.length = fuel2 + 1 - ((k, none) :: tl).length := by
        simp only [List.length_cons]; omega
      have h2 : n - 1 - tl.length = n - ((k, none) :: tl).length := by
        simp only [List.length_cons]; push_cast; ring
      rw [h1, h2]
      simp [insertEntries, insertEntry]
    | some w =>
      simp only [decodeLoop, hcons]
      rw [ih (n - 1) fuel2 rest (hmInsert acc k w)
        (fun e he => hwf e (List.mem_cons_of_mem _ he))
        (by simp only [List.length_cons] at hn; push_cast at hn ⊢; omega)
        (by omega)]
      have h1 : fuel2 - tl.length = fuel2 + 1 - ((k, some w) :: tl).length := by
        simp only [List.length_cons]; omega
      have h2 : n - 1 - tl.length = n - ((k, some w) :: tl).length := by
        simp only [List.length_cons]; push_cast; ring
      rw [h1, h2]
      simp [insertEntries, insertEntry]

theorem decodeLoop_done (fuel : Nat) (acc : Hstore) :
    decodeLoop (fuel + 1) ⟨0, []⟩ acc = .ok acc := by
  simp [decodeLoop, consume]

/-- Decoding a well-formed wire buffer of entries, followed by `extra`
trailing bytes: the loop stops on the state `⟨0, extra⟩`. -/
theorem decodeBytes_encodeWire_append (es : List (Bytes × Option Bytes))
    (extra : Bytes) (hwf : ∀ e ∈ es, wfEntry e = true)
    (hlen : es.length < 2 ^ 31) :
    decodeBytes (encodeWire es ++ extra) =
      decodeLoop 1 ⟨0, extra⟩ (insertEntries [] es) := by
  simp only [decodeBytes, from_sql, encodeWire, List.append_assoc,
    read_i32_be4_append, toI32_of_lt es.length hlen]
  have h0 : ¬ ((es.length : Int) < 0) := by omega
  have htn : (es.length : Int).toNat = es.length := by omega
  simp only [h0, if_false, htn]
  rw [decodeLoop_encodeEntries es es.length (es.length + 1) extra [] hwf
    (by omega) (by omega)]
  simp

/-- Decoding the exact wire image of a well-formed entry list succeeds and
produces the left fold of the entry insertions. -/
theorem decodeBytes_encodeWire (es : List (Bytes × Option Bytes))
    (hwf : ∀ e ∈ es, wfEntry e = true) (hlen : es.length < 2 ^ 31) :
    decodeBytes (encodeWire es) = .ok (insertEntries [] es) := by
  have h := decodeBytes_encodeWire_append es [] hwf hlen
  simpa [decodeLoop_done] using h

/-- The encoder emits exactly the wire image of the container's pairs viewed
as present-valued entries. -/
theorem to_sql_eq_encodeWire (c : Hstore) :
    to_sql c = encodeWire (c.map fun kv => (kv.1, some kv.2)) := by
  simp only [to_sql, encodeWire, encodeEntries, List.map_map, List.length_map]
  rfl

theorem hmGet_append (m1 m2 : Hstore) (k : Bytes) :
    hmGet (m1 ++ m2) k =
      match hmGet m1 k with
      | some v => some v
      | none => hmGet m2 k := by
  induction m1 with
  | nil => simp [hmGet]
  | cons p rest ih =>
    obtain ⟨k2, v2⟩ := p
    by_cases h : k2 = k <;> simp [hmGet, h, ih]

theorem insertEntries_fresh (c : Hstore) :
    ∀ acc : Hstore, (∀ kv ∈ c, hmGet acc kv.1 = none) →
    (c.map Prod.fst).Nodup →
    insertEntries acc (c.map fun kv => (kv.1, some kv.2)) = acc ++ c := by
  induction c with
  | nil => intro acc _ _; simp [insertEntries]
  | cons p tl ih =>
    intro acc hfresh hnd
    obtain ⟨k, v⟩ := p
    have hacc : hmGet acc k = none := hfresh (k, v) (List.mem_cons_self _ _)
    have hknotin : ∀ kv ∈ tl, kv.1 ≠ k := by
      intro kv hkv
      simp only [List.map_cons, List.nodup_cons, List.mem_map] at hnd
      intro hcon
      exact hnd.1 ⟨kv, hkv, hcon⟩
    have step : insertEntries acc (((k, v) :: tl).map fun kv => (kv.1, some kv.2)) =
        insertEntries (acc ++ [(k, v)]) (tl.map fun kv => (kv.1, some kv.2)) := by
      simp only [List.map_cons, insertEntries, List.foldl_cons, insertEntry,
        hmInsert_append_of_get_none acc k v hacc]
    rw [step, ih (acc ++ [(k, v)])]
    · simp
    · intro kv hkv
      rw [hmGet_append]
      have h1 : hmGet acc kv.1 = none := hfresh kv (List.mem_cons_of_mem _ hkv)
      have h2 : hmGet [(k, v)] kv.1 = none := by
        have := hknotin kv hkv
        simp only [hmGet]
        rw [if_neg (by intro h; exact this h.symm)]
      simp [h1, h2]
    · simp only [List.map_cons, List.nodup_cons] at hnd
      exact hnd.2

/-- Decoding a buffer whose count field holds `n < 2^31` enters the entry
loop with `remaining = n` and fuel `n + 1`. -/
theorem decodeBytes_step (n : Nat) (hn : n < 2 ^ 31) (buf : Bytes) :
    decodeBytes (be4 n ++ buf) = decodeLoop (n + 1) ⟨(n : Int), buf⟩ [] := by
  simp only [decodeBytes, from_sql, read_i32_be4_append, toI32_of_lt n hn]
  have h0 : ¬ ((n : Int) < 0) := by omega
  have htn : ((n : Int)).toNat = n := by omega
  simp [h0, htn]

/-- A negative key length field makes `consume` fail with "invalid key
length" before reading any key bytes. -/
theorem consume_negKeyLen (n : Int) (hn : n ≠ 0) (u : Nat)
    (hu : 2 ^ 31 ≤ u % 2 ^ 32) (rest : Bytes) :
    consume ⟨n, be4 u ++ rest⟩ = .err .invalidKeyLength := by
  simp only [consume, hn, if_false, read_i32_be4_append]
  have hneg : toI32 u < 0 := by
    simp only [toI32]
    split <;> omega
  rw [if_pos hneg]

/-- Any negative value length field is taken as the NULL sentinel: `consume`
returns the entry with an absent value and reads no value bytes. -/
theorem consume_key_negval (n : Int) (hn : n ≠ 0) (k : Bytes)
    (hk : validUtf8 k = true) (hkl : k.length < 2 ^ 31) (vl : Int)
    (h1 : -2 ^ 31 ≤ vl) (h2 : vl < 0) (rest : Bytes) :
    consume ⟨n, write_pascal_string k ++ (write_i32 vl ++ rest)⟩ =
      .ok (some (k, none), ⟨n - 1, rest⟩) := by
  simp only [write_pascal_string, write_i32, List.append_assoc]
  simp only [consume, hn, if_false, read_i32_be4_append, toI32_of_lt k.length hkl]
  have h0 : ¬ ((k.length : Int) < 0) := by omega
  have htn : (k.length : Int).toNat = k.length := by omega
  have hsplit : splitAtChecked k.length (k ++ (be4 (vl % 2 ^ 32).toNat ++ rest)) =
      .ok (k, be4 (vl % 2 ^ 32).toNat ++ rest) := by
    simp [splitAtChecked, List.take_left, List.drop_left]
  simp only [h0, if_false, htn, hsplit, fromUtf8, hk, if_true,
    read_i32_be4_append, toI32_write_i32 vl h1 (by omega)]
  rw [if_pos h2]

/-- Entries whose key is `k` and whose value is the NULL sentinel leave the
lookup of `k` unchanged. -/
theorem hmGet_insertEntries_null (es : List (Bytes × Option Bytes)) (k : Bytes) :
    ∀ acc : Hstore, (∀ e ∈ es, e.1 = k → e.2 = none) →
    hmGet (insertEntries acc es) k = hmGet acc k := by
  induction es with
  | nil => intro acc _; simp [insertEntries]
  | cons e tl ih =>
    intro acc hnull
    obtain ⟨k2, v⟩ := e
    cases v with
    | none =>
      simp only [insertEntries, List.foldl_cons, insertEntry]
      exact ih acc fun e he hk => hnull e (List.mem_cons_of_mem _ he) hk
    | some w =>
      have hk2 : k2 ≠ k := by
        intro hcon
        have := hnull (k2, some w) (List.mem_cons_self _ _) hcon
        simp at this
      simp only [insertEntries, List.foldl_cons, insertEntry]
      have ihh := ih (hmInsert acc k2 w)
        fun e he hk => hnull e (List.mem_cons_of_mem _ he) hk
      simp only [insertEntries] at ihh
      rw [ihh]
      exact hmGet_hmInsert_ne acc k k2 w hk2

theorem length_insertEntries (es : List (Bytes × Option Bytes)) :
    ∀ acc : Hstore, (insertEntries acc es).length ≤ acc.length + es.length := by
  induction es with
  | nil => intro acc; simp [insertEntries]
  | cons e tl ih =>
    intro acc
    obtain ⟨k2, v⟩ := e
    cases v with
    | none =>
      simp only [insertEntries, List.foldl_cons, insertEntry, List.length_cons]
      have := ih acc
      simp only [insertEntries] at this
      omega
    | some w =>
      simp only [insertEntries, List.foldl_cons, insertEntry, List.length_cons]
      have h1 := ih (hmInsert acc k2 w)
      have h2 := length_hmInsert acc k2 w
      simp only [insertEntries] at h1
      omega

/-- In the renderer loop the position counter never reaches `max` while
pairs remain, so a comma is pushed after every segment, the last included:
the loop output always ends in a comma. -/
theorem walk_ast_loop_trailing_comma (pairs : List (String × String)) :
    ∀ ind max : Nat, pairs ≠ [] → ind + pairs.length ≤ max →
    ∃ s : String, walk_ast_loop max ind pairs = s ++ "," := by
  induction pairs with
  | nil => intro _ _ h _; exact absurd rfl h
  | cons p tl ih =>
    intro ind max _ hle
    obtain ⟨k, v⟩ := p
    have hne : ind ≠ max := by
      simp only [List.length_cons] at hle
      omega
    cases htl : tl with
    | nil =>
      refine ⟨k ++ "=>" ++ v, ?_⟩
      simp [walk_ast_loop, hne, htl]
    | cons q tl2 =>
      have htlne : tl ≠ [] := by simp [htl]
      obtain ⟨s, hs⟩ := ih (ind + 1) max htlne
        (by simp only [List.length_cons] at hle ⊢; omega)
      refine ⟨(k ++ "=>" ++ v ++ ",") ++ s, ?_⟩
      rw [← htl]
      simp only [walk_ast_loop]
      rw [if_pos hne, hs]
      simp [String.append_assoc]

theorem decodeLoop_one_done (acc : Hstore) :
    decodeLoop 1 ⟨0, []⟩ acc = .ok acc := by
  show decodeLoop (0 + 1) ⟨0, []⟩ acc = .ok acc
  simp [decodeLoop, consume]

/-! The claims. -/

/-- C1 (amended): for every Container whose entry count and every key/value
byte length fit in a non-negative i32 (are `< 2^31`), decoding the byte
buffer produced by encoding the Container yields a Container with exactly
the same set of key/value pairs, independent of iteration order.  The UTF-8
and key-distinctness hypotheses state the invariants of the Rust
`HashMap<String, String>` representation, over an arbitrary iteration
order of its pairs. -/
theorem round_trip_in_i32_range (c : Hstore)
    (hnd : (c.map Prod.fst).Nodup)
    (hutf : ∀ kv ∈ c, wfEntry (kv.1, some kv.2) = true)
    (hlen : c.length < 2 ^ 31) :
    ∃ m, decodeBytes (to_sql c) = .ok m ∧ ∀ kv, kv ∈ m ↔ kv ∈ c := by
  refine ⟨insertEntries [] (c.map fun kv => (kv.1, some kv.2)), ?_, ?_⟩
  · rw [to_sql_eq_encodeWire]
    apply decodeBytes_encodeWire
    · intro e he
      obtain ⟨kv, hkv, rfl⟩ := List.mem_map.mp he
      exact hutf kv hkv
    · simpa using hlen
  · rw [insertEntries_fresh c [] (fun kv _ => rfl) hnd]
    simp

theorem round_trip_in_i32_range_witness :
    ∃ m, decodeBytes (to_sql [([97], [49]), ([98], [50])]) = .ok m ∧
      ∀ kv, kv ∈ m ↔ kv ∈ [([97], [49]), ([98], [50])] :=
  round_trip_in_i32_range [([97], [49]), ([98], [50])] (by decide) (by decide)
    (by decide)

/-- C1 fails as stated at a Container holding a single key of 2^31 bytes:
`s.len() as i32` wraps to the negative value `-2^31`, so decoding the
encoder's output rejects the key length instead of returning the Container
back. -/
theorem round_trip_fails_at_i32_overflow :
    decodeBytes (to_sql [(List.replicate (2 ^ 31) 97, ([] : Bytes))]) =
      .err .invalidKeyLength := by
  have hkey : (List.replicate (2 ^ 31) 97 : Bytes).length = 2 ^ 31 := by
    exact List.length_replicate _ _
  simp only [to_sql, List.map_cons, List.map_nil, List.flatten_cons,
    List.flatten_nil, List.append_nil, List.length_cons, List.length_nil,
    Nat.zero_add, write_pascal_string, List.append_assoc]
  rw [hkey]
  rw [decodeBytes_step 1 (by norm_num)]
  simp only [decodeLoop]
  rw [consume_negKeyLen ((1 : Nat) : Int) (by norm_num) (2 ^ 31) (by norm_num)
    (List.replicate (2 ^ 31) 97 ++ be4 0)]

/-- C2 is false of the code: inside the loop of `walk_ast` the counter `ind`
never equals `max`, so the guard `ind != max` always pushes a comma — a
comma follows the last `key=>value` segment as well.  Conjunct one
evaluates the renderer at the singleton container `{a: b}`; conjunct two
shows every non-empty Container renders with a comma immediately before the
closing quote. -/
theorem walk_ast_comma_after_last_segment :
    walk_ast [("a", "b")] = String.append "'a=>b," "'::hstore" ∧
    ∀ (p : String × String) (ps : List (String × String)),
      ∃ s : String, walk_ast (p :: ps) = s ++ ",'::hstore" := by
  constructor
  · rfl
  · intro p ps
    obtain ⟨s, hs⟩ := walk_ast_loop_trailing_comma (p :: ps) 0 (p :: ps).length
      (by simp) (by omega)
    refine ⟨"'" ++ s, ?_⟩
    rw [walk_ast, hs]
    have hq : ("," : String) ++ "'::hstore" = ",'::hstore" := rfl
    rw [← hq, ← String.append_assoc, ← String.append_assoc]

/-- C3 is false as stated: a value length of `-2` is not rejected with a
malformed-value-length error (no such error exists in the code); the entry
is silently treated as a NULL value and dropped, and decode succeeds with
the empty Container. -/
theorem negative_value_len_not_rejected :
    decodeBytes (be4 1 ++ (write_pascal_string [97] ++ write_i32 (-2))) =
      .ok [] := by decide

/-- C3 (amended): during decode every negative 4-byte value length — `-1`
and every other negative value alike — is the NULL-value sentinel: no value
bytes are read for the entry, the entry is dropped, and decode succeeds. -/
theorem negative_value_len_is_null_sentinel (k : Bytes) (vl : Int)
    (hk : validUtf8 k = true) (hkl : k.length < 2 ^ 31)
    (h1 : -2 ^ 31 ≤ vl) (h2 : vl < 0) :
    decodeBytes (be4 1 ++ (write_pascal_string k ++ write_i32 vl)) = .ok [] := by
  have hbuf : write_pascal_string k ++ write_i32 vl =
      write_pascal_string k ++ (write_i32 vl ++ []) := by simp
  rw [hbuf, decodeBytes_step 1 (by norm_num)]
  simp only [decodeLoop]
  rw [consume_key_negval ((1 : Nat) : Int) (by norm_num) k hk hkl vl h1 h2 []]
  have hz : ((1 : Nat) : Int) - 1 = 0 := by norm_num
  simp [hz, consume]

theorem negative_value_len_is_null_sentinel_witness :
    decodeBytes (be4 1 ++ (write_pascal_string [97] ++ write_i32 (-2))) =
      .ok [] :=
  negative_value_len_is_null_sentinel [97] (-2) (by decide) (by decide)
    (by decide) (by decide)

/-- C4 is false of the code: on a buffer declaring one entry with key length
5 but holding no key bytes, `consume` calls `slice::split_at(5)` on an empty
slice, which panics ("mid > len") instead of returning a decode error. -/
theorem decode_panics_on_oversized_key_len :
    decodeBytes [0, 0, 0, 1, 0, 0, 0, 5] = .panicked := by decide

/-- C5: a well-formed wire buffer in which every entry for key `k` carries a
NULL-sentinel value decodes successfully to a Container not containing `k`,
whose size is at most (and can be smaller than) the wire entry count. -/
theorem null_sentinel_drops_key (es : List (Bytes × Option Bytes)) (k : Bytes)
    (hwf : ∀ e ∈ es, wfEntry e = true) (hlen : es.length < 2 ^ 31)
    (hnull : ∀ e ∈ es, e.1 = k → e.2 = none) :
    ∃ m, decodeBytes (encodeWire es) = .ok m ∧ hmGet m k = none ∧
      m.length ≤ es.length := by
  refine ⟨insertEntries [] es, decodeBytes_encodeWire es hwf hlen, ?_, ?_⟩
  · rw [hmGet_insertEntries_null es k [] hnull]
    rfl
  · simpa using length_insertEntries es []

theorem null_sentinel_drops_key_witness :
    ∃ m, decodeBytes (encodeWire [([97], none)]) = .ok m ∧
      hmGet m [97] = none ∧ m.length ≤ 1 :=
  null_sentinel_drops_key [([97], none)] [97] (by decide) (by decide)
    (by decide)

/-- C6: any bytes left over after the declared number of entries has been
consumed fail decode with the "invalid buffer size" (trailing data) error;
and the concrete buffer declaring two entries but holding one full entry
(key `a`, value `b`) fails with the `UnexpectedEof` truncation error rather
than decoding to a silently short Container. -/
theorem trailing_and_truncated_rejected (es : List (Bytes × Option Bytes))
    (extra : Bytes) (hwf : ∀ e ∈ es, wfEntry e = true)
    (hlen : es.length < 2 ^ 31) (hextra : extra ≠ []) :
    decodeBytes (encodeWire es ++ extra) = .err .invalidBufferSize ∧
    decodeBytes (be4 2 ++ (write_pascal_string [97] ++ write_pascal_string [98])) =
      .err .unexpectedEof := by
  constructor
  · rw [decodeBytes_encodeWire_append es extra hwf hlen]
    obtain ⟨a, as, rfl⟩ := List.exists_cons_of_ne_nil hextra
    show decodeLoop (0 + 1) ⟨0, a :: as⟩ _ = _
    simp [decodeLoop, consume]
  · decide

theorem trailing_and_truncated_rejected_witness :
    decodeBytes (encodeWire [([97], some [49])] ++ [0]) =
      .err .invalidBufferSize ∧
    decodeBytes (be4 2 ++ (write_pascal_string [97] ++ write_pascal_string [98])) =
      .err .unexpectedEof :=
  trailing_and_truncated_rejected [([97], some [49])] [0] (by decide)
    (by decide) (by decide)

/-- C7: a buffer whose next 4-byte key length field holds any negative i32
(after any number of well-formed preceding entries) fails decode with the
"invalid key length" error; the error is returned before any key bytes are
read, so no read at a negative offset is ever attempted. -/
theorem negative_key_len_rejected (es : List (Bytes × Option Bytes)) (n : Nat)
    (kl : Int) (rest : Bytes) (hwf : ∀ e ∈ es, wfEntry e = true)
    (hn1 : es.length < n) (hn2 : n < 2 ^ 31)
    (h1 : -2 ^ 31 ≤ kl) (h2 : kl < 0) :
    decodeBytes (be4 n ++ (encodeEntries es ++ (write_i32 kl ++ rest))) =
      .err .invalidKeyLength := by
  rw [decodeBytes_step n hn2]
  rw [decodeLoop_encodeEntries es n (n + 1) (write_i32 kl ++ rest) [] hwf
    (by omega) (by omega)]
  obtain ⟨f, hf⟩ : ∃ f, n + 1 - es.length = f + 1 := ⟨n - es.length, by omega⟩
  rw [hf]
  simp only [decodeLoop, write_i32]
  have hne : ((n : Int) - (es.length : Int)) ≠ 0 := by omega
  have hu : 2 ^ 31 ≤ (kl % 2 ^ 32).toNat % 2 ^ 32 := by omega
  have hc := consume_negKeyLen ((n : Int) - (es.length : Int)) hne
    ((kl % 2 ^ 32).toNat) hu rest
  rw [hc]

theorem negative_key_len_rejected_witness :
    decodeBytes (be4 1 ++ (encodeEntries [] ++ (write_i32 (-5) ++ []))) =
      .err .invalidKeyLength :=
  negative_key_len_rejected [] 1 (-5) [] (by decide) (by decide) (by decide)
    (by decide) (by decide)

/-- C8: the `contains` builder produces the `HstoreRightSubset` node, whose
declared engine token (dsl.rs) is `<@`, and the `is_contained_by` builder
produces the `HstoreLeftSubset` node with token `@>`; each node carries its
two operand expressions.  The method names are bound to the inverted
symbols exactly as listed. -/
theorem contains_token_binding {L R : Type} (l : L) (r : R) :
    containsBuilder l r = ⟨"<@", l, r⟩ ∧
      isContainedByBuilder l r = ⟨"@>", l, r⟩ :=
  ⟨rfl, rfl⟩

theorem contains_token_binding_witness :
    containsBuilder (0 : Nat) (1 : Nat) = ⟨"<@", 0, 1⟩ ∧
      isContainedByBuilder (0 : Nat) (1 : Nat) = ⟨"@>", 0, 1⟩ :=
  contains_token_binding 0 1

/-- C9: indexing a Container panics with the message "no entry found for
key" whenever the key is absent, and returns the stored value whenever the
key is present. -/
theorem index_panics_on_absent_key (m : Hstore) (k : Bytes) :
    (hmGet m k = none →
      indexHstore m k = .panicked "no entry found for key") ∧
    (∀ v, hmGet m k = some v → indexHstore m k = .ok v) := by
  constructor
  · intro h
    simp [indexHstore, h]
  · intro v h
    simp [indexHstore, h]

theorem index_panics_on_absent_key_witness :
    indexHstore [([97], [98])] [99] = .panicked "no entry found for key" ∧
      indexHstore [([97], [98])] [97] = .ok [98] :=
  ⟨(index_panics_on_absent_key [([97], [98])] [99]).1 (by decide),
   (index_panics_on_absent_key [([97], [98])] [97]).2 [98] (by decide)⟩

/-- C10: a wire buffer holding two well-formed present-valued entries with
the same key decodes successfully — duplicate wire keys raise no error —
and the resulting Container maps the key to the value of the later entry
(`HashMap::insert` overwrites). -/
theorem duplicate_keys_last_wins (k v1 v2 : Bytes)
    (h1 : wfEntry (k, some v1) = true) (h2 : wfEntry (k, some v2) = true) :
    ∃ m, decodeBytes (encodeWire [(k, some v1), (k, some v2)]) = .ok m ∧
      hmGet m k = some v2 := by
  refine ⟨insertEntries [] [(k, some v1), (k, some v2)], ?_, ?_⟩
  · apply decodeBytes_encodeWire
    · intro e he
      simp only [List.mem_cons, List.not_mem_nil, or_false] at he
      rcases he with rfl | rfl
      · exact h1
      · exact h2
    · norm_num
  · simp only [insertEntries, List.foldl_cons, List.foldl_nil, insertEntry]
    exact hmGet_hmInsert_self _ k v2

theorem duplicate_keys_last_wins_witness :
    ∃ m, decodeBytes (encodeWire [([97], some [49]), ([97], some [50])]) =
      .ok m ∧ hmGet m [97] = some [50] :=
  duplicate_keys_last_wins [97] [49] [50] (by decide) (by decide)

end DieselPgHstore
